import Mathlib

/-!
# Revel adapter for the generic loggers interface

A shallow embedding of `revel.go`: the level dispatcher `getRevelLevel`, the caller-location
resolver (`shortenFile`, `caller`), the base adapter `Logger` and the field-bound adapter
`revelPostfixLogger`.

The adapter is glue over three things that live outside the repository, which are modelled here
as far as the adapter uses them:

* package `fmt` of the Go standard library (`Sprint`, `Sprintln`, `Sprintf`);
* `runtime.Caller`, modelled by an explicit call stack;
* the six print functions of the framework logger `revel.AppLog`, modelled by the record of the
  call that is made (which function, which message).
-/

/-! ## Faults -/

/-- Ways a modelled computation yields no value: a Go panic, or an input on which the model of
package fmt is silent (such an outcome says nothing about what Go prints) -/
inductive Fault where
  | panic (msg : String)
  | unmodelled
deriving DecidableEq, Repr

/-! ## Package fmt -/

namespace fmt

/-- A Go operand (a value of type `interface{}`) as far as package fmt observes it.
`other` stands for an operand of any further type: whether its reflect kind is String, the name
of its type, and what the verb `%v` writes for it -/
inductive Value where
  | nil
  | str (s : String)
  | bool (b : Bool)
  | int (n : Int)
  | other (stringKind : Bool) (typeName : String) (text : String)
deriving DecidableEq, Repr

/-- The test `arg != nil && reflect.TypeOf(arg).Kind() == reflect.String` of `doPrint` -/
def Value.isString : Value → Bool
  | .str _ => true
  | .other stringKind _ _ => stringKind
  | _ => false

/-- The result of `reflect.TypeOf(arg).String()` -/
def Value.typeName : Value → String
  | .nil => "<nil>"
  | .str _ => "string"
  | .bool _ => "bool"
  | .int _ => "int"
  | .other _ typeName _ => typeName

/-- What `printArg(arg, 'v')` writes: the default format of the operand -/
def Value.text : Value → String
  | .nil => "<nil>"
  | .str s => s
  | .bool b => if b then "true" else "false"
  | .int n => toString n
  | .other _ _ text => text

/-- The text `%!verb(type=value)` that fmt writes for a verb the operand does not support;
for a nil operand it is `%!verb(<nil>)` -/
def badVerb (verb : Char) (arg : Value) : String :=
  match arg with
  | .nil => "%!" ++ verb.toString ++ "(<nil>)"
  | _ => "%!" ++ verb.toString ++ "(" ++ arg.typeName ++ "=" ++ arg.text ++ ")"

/-- What `printArg(arg, verb)` writes for a verb without flags, width or precision.
The verbs `x X q` of strings, `b c o O q x X U` of ints and every verb but `v T` of an `other`
operand are not modelled -/
def printArg (arg : Value) (verb : Char) : Except Fault String :=
  match arg with
  | .nil => if verb = 'T' ∨ verb = 'v' then .ok "<nil>" else .ok (badVerb verb arg)
  | .str s =>
    if verb = 'T' then .ok arg.typeName
    else if verb = 'v' ∨ verb = 's' then .ok s
    else if verb = 'x' ∨ verb = 'X' ∨ verb = 'q' then .error .unmodelled
    else .ok (badVerb verb arg)
  | .bool _ =>
    if verb = 'T' then .ok arg.typeName
    else if verb = 'v' ∨ verb = 't' then .ok arg.text
    else .ok (badVerb verb arg)
  | .int _ =>
    if verb = 'T' then .ok arg.typeName
    else if verb = 'v' ∨ verb = 'd' then .ok arg.text
    else if verb ∈ ['b', 'c', 'o', 'O', 'q', 'x', 'X', 'U'] then .error .unmodelled
    else .ok (badVerb verb arg)
  | .other _ _ _ =>
    if verb = 'T' then .ok arg.typeName
    else if verb = 'v' then .ok arg.text
    else .error .unmodelled

/-- The loop of `doPrint`: a space is written between two operands when neither is a string -/
def doPrint (argNum : Nat) (prevString : Bool) : List Value → String
  | [] => ""
  | arg :: rest =>
    let isString := arg.isString
    (if argNum > 0 ∧ !isString ∧ !prevString then " " else "") ++ arg.text
      ++ doPrint (argNum + 1) isString rest

/-- The function `fmt.Sprint` -/
def Sprint (a : List Value) : String := doPrint 0 false a

/-- The loop of `doPrintln`: a space between operands always, a newline after the last -/
def doPrintln (argNum : Nat) : List Value → String
  | [] => "\n"
  | arg :: rest => (if argNum > 0 then " " else "") ++ arg.text ++ doPrintln (argNum + 1) rest

/-- The function `fmt.Sprintln` -/
def Sprintln (a : List Value) : String := doPrintln 0 a

/-- The flags of a directive -/
def isFlag (c : Char) : Bool := c ∈ ['#', '0', '+', '-', ' ']

/-- Characters that open a width or a precision -/
def isSize (c : Char) : Bool :=
  c ∈ ['*', '.', '1', '2', '3', '4', '5', '6', '7', '8', '9']

/-- Where the scan of a format stands: in plain text, after a `%` and its flags (`seen` tells
whether there was a flag), inside the brackets of an argument index read right after the `%`
(`n` is the number read so far), or after such an index -/
inductive Scan where
  | text
  | flags (seen : Bool)
  | index (n : Nat) (digits : Bool)
  | indexed (n : Nat)
deriving DecidableEq, Repr

/-- Put text in front of the output of the rest of the format -/
def emitBefore {α : Type} (s : String) (r : Except Fault (String × α)) :
    Except Fault (String × α) :=
  r.map fun p => (s ++ p.1, p.2)

/-- The loop of `doPrintf`, one character of the format at a time, with `argNum` the index of
the next operand and `reordered` the flag that an argument index was met; it returns the text
written and the final `argNum` and `reordered`.

Text up to a `%` is copied. After a `%` flags are skipped; then `%` writes a percent sign
whatever the flags, and a verb formats the next operand, or writes `%!verb(MISSING)` when none
is left; a format that ends there writes `%!(NOVERB)`. `%[n]verb` formats operand `n` and goes
on with operand `n + 1`, or writes `%!verb(BADINDEX)` when there is no operand `n`.

Not modelled: an operand formatted under flags, a width, a precision, and an argument index
in any place but right after the `%` and right before the verb -/
def doPrintf (a : List Value) :
    List Char → Scan → Nat → Bool → Except Fault (String × Nat × Bool)
  | [], .text, argNum, reordered => .ok ("", argNum, reordered)
  | [], .flags _, argNum, reordered => .ok ("%!(NOVERB)", argNum, reordered)
  | [], .index _ _, _, _ => .error .unmodelled
  | [], .indexed _, _, _ => .error .unmodelled
  | c :: rest, .text, argNum, reordered =>
    if c ≠ '%' then emitBefore c.toString (doPrintf a rest .text argNum reordered)
    else doPrintf a rest (.flags false) argNum reordered
  | c :: rest, .flags seen, argNum, reordered =>
    if isFlag c then doPrintf a rest (.flags true) argNum reordered
    else if isSize c then .error .unmodelled
    else if c = '[' then
      if seen then .error .unmodelled else doPrintf a rest (.index 0 false) argNum true
    else if c = '%' then emitBefore "%" (doPrintf a rest .text argNum reordered)
    else
      match a[argNum]? with
      | some arg =>
        if seen then .error .unmodelled
        else
          match printArg arg c with
          | .ok s => emitBefore s (doPrintf a rest .text (argNum + 1) reordered)
          | .error e => .error e
      | none =>
        emitBefore ("%!" ++ c.toString ++ "(MISSING)") (doPrintf a rest .text argNum reordered)
  | c :: rest, .index n digits, argNum, reordered =>
    if c.isDigit then
      if n > 1000000 then .error .unmodelled
      else doPrintf a rest (.index (n * 10 + (c.toNat - '0'.toNat)) true) argNum reordered
    else if c = ']' ∧ digits then doPrintf a rest (.indexed n) argNum reordered
    else .error .unmodelled
  | c :: rest, .indexed n, argNum, reordered =>
    if isFlag c ∨ isSize c ∨ c = '[' ∨ c = '%' then .error .unmodelled
    else if 1 ≤ n ∧ n ≤ a.length then
      match a[n - 1]? with
      | some arg =>
        match printArg arg c with
        | .ok s => emitBefore s (doPrintf a rest .text n reordered)
        | .error e => .error e
      | none => .error .unmodelled
    else
      emitBefore ("%!" ++ c.toString ++ "(BADINDEX)") (doPrintf a rest .text argNum reordered)

/-- One item `type=value` of the list of unused operands; a nil operand is written `<nil>` -/
def extraItem (arg : Value) : String :=
  match arg with
  | .nil => "<nil>"
  | _ => arg.typeName ++ "=" ++ arg.text

/-- The text `%!(EXTRA type=value, ...)` that reports the operands no verb used -/
def extraArgs (unused : List Value) : String :=
  "%!(EXTRA " ++ String.intercalate ", " (unused.map extraItem) ++ ")"

/-- The function `fmt.Sprintf`: the unused operands are reported unless an argument index was
met -/
def Sprintf (format : String) (a : List Value) : Except Fault String :=
  (doPrintf a format.data .text 0 false).map fun p =>
    if !p.2.2 ∧ p.2.1 < a.length then p.1 ++ extraArgs (a.drop p.2.1) else p.1

/-- Where the reading of a directive stands: the places of the scan, and after them the
digits of a width (`n` is the number read so far), a width `*`, the `.` of a precision, the
digits of a precision, a precision `*` -/
inductive Place where
  | text
  | flags
  | index (n : Nat) (digits : Bool)
  | indexed (n : Nat)
  | width (n : Nat)
  | star
  | dot
  | precision (n : Nat)
  | precStar
deriving DecidableEq, Repr

/-- The place of a state of the scan -/
def Scan.place : Scan → Place
  | .text => .text
  | .flags _ => .flags
  | .index n digits => .index n digits
  | .indexed n => .indexed n

/-- The operand that follows the verb `c` when the next operand is `k`: `%` takes none, any
other verb takes operand `k`, which must be among the `numArgs` supplied; `[` is no verb -/
def verbStep (numArgs : Nat) (c : Char) (k : Nat) : Option Nat :=
  if c = '[' then none
  else if c = '%' then some k
  else if k < numArgs then some (k + 1) else none

/-- The index of the operand that follows the last directive of a format, for a format in
which every `%` opens a complete directive and no directive is left without an operand among
the `numArgs` supplied: a verb and a `*` take the next operand, `%[n]verb` takes operand `n`
and goes on after it, and with an `n` that names no operand (0, or above `numArgs + 1`) it
takes none and the next operand stays. `none` for a format that ends inside a directive, that
lacks an operand, that holds a number above the limit of fmt, that holds an argument index in
another place than right after the `%` and flags and right before the verb, or that holds the
index `numArgs + 1`, which names an operand as soon as one more is supplied -/
def nextOperand (numArgs : Nat) : Place → Nat → List Char → Option Nat
  | .text, k, [] => some k
  | .flags, _, [] => none
  | .index _ _, _, [] => none
  | .indexed _, _, [] => none
  | .width _, _, [] => none
  | .star, _, [] => none
  | .dot, _, [] => none
  | .precision _, _, [] => none
  | .precStar, _, [] => none
  | .text, k, c :: rest =>
    if c ≠ '%' then nextOperand numArgs .text k rest else nextOperand numArgs .flags k rest
  | .flags, k, c :: rest =>
    if isFlag c then nextOperand numArgs .flags k rest
    else if isSize c then
      if c = '*' then
        if k < numArgs then nextOperand numArgs .star (k + 1) rest else none
      else if c = '.' then nextOperand numArgs .dot k rest
      else nextOperand numArgs (.width (c.toNat - '0'.toNat)) k rest
    else if c = '[' then nextOperand numArgs (.index 0 false) k rest
    else
      match verbStep numArgs c k with
      | some k2 => nextOperand numArgs .text k2 rest
      | none => none
  | .index n digits, k, c :: rest =>
    if c.isDigit then
      if n > 1000000 then none
      else nextOperand numArgs (.index (n * 10 + (c.toNat - '0'.toNat)) true) k rest
    else if c = ']' ∧ digits then nextOperand numArgs (.indexed n) k rest
    else none
  | .indexed n, k, c :: rest =>
    if isFlag c ∨ isSize c ∨ c = '[' ∨ c = '%' then none
    else if 1 ≤ n ∧ n ≤ numArgs then nextOperand numArgs .text n rest
    else if n = numArgs + 1 then none
    else nextOperand numArgs .text k rest
  | .width n, k, c :: rest =>
    if c.isDigit then
      if n > 1000000 then none
      else nextOperand numArgs (.width (n * 10 + (c.toNat - '0'.toNat))) k rest
    else if c = '.' then nextOperand numArgs .dot k rest
    else
      match verbStep numArgs c k with
      | some k2 => nextOperand numArgs .text k2 rest
      | none => none
  | .star, k, c :: rest =>
    if c = '.' then nextOperand numArgs .dot k rest
    else
      match verbStep numArgs c k with
      | some k2 => nextOperand numArgs .text k2 rest
      | none => none
  | .dot, k, c :: rest =>
    if c = '*' then
      if k < numArgs then nextOperand numArgs .precStar (k + 1) rest else none
    else if c.isDigit then nextOperand numArgs (.precision (c.toNat - '0'.toNat)) k rest
    else
      match verbStep numArgs c k with
      | some k2 => nextOperand numArgs .text k2 rest
      | none => none
  | .precision n, k, c :: rest =>
    if c.isDigit then
      if n > 1000000 then none
      else nextOperand numArgs (.precision (n * 10 + (c.toNat - '0'.toNat))) k rest
    else
      match verbStep numArgs c k with
      | some k2 => nextOperand numArgs .text k2 rest
      | none => none
  | .precStar, k, c :: rest =>
    match verbStep numArgs c k with
    | some k2 => nextOperand numArgs .text k2 rest
    | none => none

end fmt

/-! ## Package strings -/

namespace strings

/-- The function `strings.Join` -/
def Join (elems : List String) (sep : String) : String := sep.intercalate elems

end strings

/-! ## Package runtime -/

/-- One frame of the call stack: the source file and the line being executed in it -/
structure Frame where
  file : String
  line : Nat
deriving DecidableEq, Repr

namespace runtime

/-- The function `runtime.Caller(skip)` over an explicit stack, innermost frame first, where
`stack[0]` is the frame of the function that calls `runtime.Caller`; `none` is `ok == false` -/
def Caller (stack : List Frame) (skip : Nat) : Option Frame := stack[skip]?

end runtime

/-! ## The mapping layer and the framework logger -/

namespace mappers

/-- Modelled from the spec: the severity level of the mapping layer, declared outside the
sources. It is a small integer type of which six values are named, in the order
debug, info, warn, error, fatal, panic -/
structure Level where
  code : Nat
deriving DecidableEq, Repr

def LevelDebug : Level := ⟨0⟩
def LevelInfo : Level := ⟨1⟩
def LevelWarn : Level := ⟨2⟩
def LevelError : Level := ⟨3⟩
def LevelFatal : Level := ⟨4⟩
def LevelPanic : Level := ⟨5⟩

end mappers

namespace revel

/-- The six print functions of `revel.AppLog` -/
inductive AppLog where
  | Debug | Info | Warn | Error | Fatal | Panic
deriving DecidableEq, Repr

/-- One call of a print function of the framework: the function and the message it is handed -/
structure Call where
  fn : AppLog
  msg : String
deriving DecidableEq, Repr

end revel

/-! ## The adapter (`revel.go`) -/

open fmt mappers

/-- The dispatcher `getRevelLevel`; the default case panics -/
def getRevelLevel (lev : Level) : Except Fault revel.AppLog :=
  if lev = LevelDebug then .ok .Debug
  else if lev = LevelInfo then .ok .Info
  else if lev = LevelWarn then .ok .Warn
  else if lev = LevelError then .ok .Error
  else if lev = LevelFatal then .ok .Fatal
  else if lev = LevelPanic then .ok .Panic
  else .error (.panic "unreachable")

/-- The loop of `shortenFile` at index `i`, counting down while `i > 0`: the first `/` met sets
`foundOne`, the second one ends the loop with `short = file[i+1:]`; when the loop runs out
`short` is still the whole of `file` -/
def shortenFile.loop (file : List Char) : Nat → Bool → List Char
  | 0, _ => file
  | i + 1, foundOne =>
    if file[i + 1]? = some '/' then
      if !foundOne then shortenFile.loop file i true
      else file.drop (i + 1 + 1)
    else shortenFile.loop file i foundOne

/-- The function `shortenFile` -/
def shortenFile (file : String) : String :=
  ⟨shortenFile.loop file.data (file.data.length - 1) false⟩

/-- The function `caller(depth)`, run with the call stack `stack` whose innermost frame is the
one of `caller` itself -/
def caller (stack : List Frame) (depth : Nat) : String :=
  match runtime.Caller stack (depth + 1) with
  | some fr => shortenFile fr.file ++ ":" ++ toString fr.line ++ ":"
  | none => shortenFile "???" ++ ":" ++ toString 0 ++ ":"

/-- The base adapter -/
structure Logger where
deriving DecidableEq, Repr

/-- The field-bound adapter; `postFix` is the field `postfix` of the source -/
structure revelPostfixLogger where
  postFix : String
deriving DecidableEq, Repr

/-- The call `getRevelLevel(lev)(msg)` -/
def dispatch (lev : Level) (msg : Except Fault String) : Except Fault revel.Call :=
  match getRevelLevel lev with
  | .ok fn =>
    match msg with
    | .ok m => .ok ⟨fn, m⟩
    | .error e => .error e
  | .error e => .error e

/-- The method `Logger.LevelPrint`; `stack` is the call stack while `caller` runs: the frame of
`caller`, the frame of this method, then the callers of this method outward -/
def Logger.LevelPrint (_l : Logger) (stack : List Frame) (lev : Level) (i : List Value) :
    Except Fault revel.Call :=
  let i := [Value.str (caller stack 3 ++ " ")] ++ i
  dispatch lev (.ok (Sprint i))

/-- The method `Logger.LevelPrintf` -/
def Logger.LevelPrintf (_l : Logger) (stack : List Frame) (lev : Level) (format : String)
    (i : List Value) : Except Fault revel.Call :=
  dispatch lev (Sprintf (caller stack 3 ++ " " ++ format) i)

/-- The method `Logger.LevelPrintln` -/
def Logger.LevelPrintln (_l : Logger) (stack : List Frame) (lev : Level) (i : List Value) :
    Except Fault revel.Call :=
  let i := [Value.str (caller stack 3)] ++ i
  dispatch lev (.ok (Sprintln i))

/-- The loop of `Logger.WithFields` at index `i`, appending one token per complete pair -/
def Logger.WithFields.loop (fields : List Value) (i : Nat) (s : List String) : List String :=
  if h : i + 1 < fields.length then
    let key := fields[i]
    let value := fields[i + 1]
    Logger.WithFields.loop fields (i + 2) (s ++ [Sprint [key, Value.str "=", value]])
  else s
termination_by fields.length - i

/-- The method `Logger.WithFields`: `make([]string, len(fields)/2)` gives a slice that already
holds `len(fields)/2` empty strings, and the loop appends the tokens after them -/
def Logger.WithFields (_l : Logger) (fields : List Value) : revelPostfixLogger :=
  let s := List.replicate (fields.length / 2) ""
  let s := Logger.WithFields.loop fields 0 s
  ⟨strings.Join s " "⟩

/-- The method `Logger.WithField` -/
def Logger.WithField (l : Logger) (key : String) (value : Value) : revelPostfixLogger :=
  l.WithFields [Value.str key, value]

/-- The method `revelPostfixLogger.LevelPrint` -/
def revelPostfixLogger.LevelPrint (r : revelPostfixLogger) (lev : Level) (i : List Value) :
    Except Fault revel.Call :=
  let i := i ++ [Value.str r.postFix]
  dispatch lev (.ok (Sprint i))

/-- The method `revelPostfixLogger.LevelPrintf` -/
def revelPostfixLogger.LevelPrintf (r : revelPostfixLogger) (lev : Level) (format : String)
    (i : List Value) : Except Fault revel.Call :=
  if r.postFix.length > 0 then
    dispatch lev (Sprintf (format ++ " %s") (i ++ [Value.str r.postFix]))
  else
    dispatch lev (Sprintf format i)

/-- The method `revelPostfixLogger.LevelPrintln` -/
def revelPostfixLogger.LevelPrintln (r : revelPostfixLogger) (lev : Level) (i : List Value) :
    Except Fault revel.Call :=
  let i := i ++ [Value.str r.postFix]
  dispatch lev (.ok (Sprintln i))

/-! ## Notions used to state the properties -/

/-- The tokens `key=value` of a flat list of fields, one per complete pair, in order -/
def pairTokens : List Value → List String
  | key :: value :: rest => Sprint [key, Value.str "=", value] :: pairTokens rest
  | _ => []

/-- The flat argument list of a list of key/value pairs -/
def flatten : List (Value × Value) → List Value
  | [] => []
  | (k, v) :: rest => k :: v :: flatten rest

/-- The token written for one pair -/
def token (p : Value × Value) : String := p.1.text ++ "=" ++ p.2.text

/-- Strings written one after the other with nothing between them -/
def concat : List String → String
  | [] => ""
  | s :: rest => s ++ concat rest

/-- A string of `n` spaces -/
def spaces (n : Nat) : String := ⟨List.replicate n ' '⟩

/-- The last path segment of a file name: what follows its last `/` -/
def baseName (file : String) : String :=
  ⟨(file.data.reverse.takeWhile (· ≠ '/')).reverse⟩

/-- Whether the last character of a string is a newline -/
def endsWithNewline (s : String) : Prop := s.data.getLast? = some '\n'

instance (s : String) : Decidable (endsWithNewline s) :=
  inferInstanceAs (Decidable (s.data.getLast? = some '\n'))

/-- Whether `sub` occurs in `msg` as a run of consecutive characters -/
def contains (msg sub : String) : Prop := sub.data <:+: msg.data

instance (msg sub : String) : Decidable (contains msg sub) :=
  inferInstanceAs (Decidable (sub.data <:+: msg.data))

/-- Whether a piece of a format writes nothing when scanned as plain text from some operand
on -/
def rendersNothing (a : List Value) (f : List Char) : Prop :=
  ∃ (n : Nat) (r : Bool) (k : Nat) (r2 : Bool), doPrintf a f .text n r = .ok ("", k, r2)

/-- Characters of an argument index -/
def isIndexChar (c : Char) : Bool := c = '[' || c = ']' || c.isDigit

/-- Whether the text `f` ends with a directive of verb `verb`: a `%`, then nothing or the
characters of an argument index, then the verb -/
def endsWithVerb (f : List Char) (verb : Char) : Prop :=
  ∃ g d : List Char, f = g ++ ('%' :: d) ++ [verb] ∧ ∀ x ∈ d, isIndexChar x = true

/-- Whether a format, leaving aside a part at its end that writes nothing, ends with a newline
or with a verb under which an operand's rendering ends with a newline -/
def newlineAtEnd (a : List Value) (format : List Char) : Prop :=
  ∃ f1 f2 : List Char, format = f1 ++ f2 ∧ rendersNothing a f2
    ∧ (f1.getLast? = some '\n'
      ∨ ∃ v ∈ a, ∃ (verb : Char) (t : String),
          endsWithVerb f1 verb ∧ printArg v verb = .ok t ∧ endsWithNewline t)

/-- What has been read when the scan stands at `st`: outside plain text and flags, the text
read ends with a `%` and the characters of an argument index -/
def opened (st : Scan) (read : List Char) : Prop :=
  st = .text ∨ st = .flags true
    ∨ ∃ g d : List Char, read = g ++ ('%' :: d) ∧ ∀ x ∈ d, isIndexChar x = true

/-- Whether the last value of the list whose rendering is not empty ends with a newline -/
def lastTextEndsWithNewline (values : List Value) : Prop :=
  ∃ (front : List Value) (v : Value) (back : List Value), values = front ++ v :: back
    ∧ endsWithNewline v.text ∧ ∀ w ∈ back, w.text = ""

/-! ## Auxiliary facts -/

theorem dispatch_ok {lev : Level} {fn : revel.AppLog} (h : getRevelLevel lev = .ok fn)
    (m : String) : dispatch lev (.ok m) = .ok ⟨fn, m⟩ := by
  simp [dispatch, h]

theorem dispatch_panic {lev : Level} {e : Fault} (h : getRevelLevel lev = .error e)
    (m : Except Fault String) : dispatch lev m = .error e := by
  simp [dispatch, h]

theorem doPrint_strs (n : Nat) (p : Bool) (vals : List String) :
    doPrint n p (vals.map Value.str) = concat vals := by
  induction vals generalizing n p with
  | nil => rfl
  | cons s rest ih =>
    simp only [List.map_cons, doPrint, Value.isString, concat, Value.text, ih]
    simp

theorem Sprint_token (k v : Value) : Sprint [k, Value.str "=", v] = k.text ++ "=" ++ v.text := by
  simp [Sprint, doPrint, Value.isString, Value.text, String.append_assoc]

theorem pairTokens_flatten (pairs : List (Value × Value)) :
    pairTokens (flatten pairs) = pairs.map token := by
  induction pairs with
  | nil => rfl
  | cons p rest ih =>
    obtain ⟨k, v⟩ := p
    simp [flatten, pairTokens, ih, token, Sprint_token]

theorem length_flatten (pairs : List (Value × Value)) :
    (flatten pairs).length = 2 * pairs.length := by
  induction pairs with
  | nil => rfl
  | cons p rest ih =>
    obtain ⟨k, v⟩ := p
    simp [flatten, ih]; omega

theorem pairTokens_short (l : List Value) (h : l.length ≤ 1) : pairTokens l = [] := by
  match l, h with
  | [], _ => rfl
  | [_], _ => rfl

theorem loop_eq (fields : List Value) (i : Nat) (s : List String) :
    Logger.WithFields.loop fields i s = s ++ pairTokens (fields.drop i) := by
  induction i, s using Logger.WithFields.loop.induct fields with
  | case1 i s h key value ih =>
    rw [Logger.WithFields.loop, dif_pos h, ih]
    have h1 : i < fields.length := by omega
    rw [List.drop_eq_getElem_cons h1, List.drop_eq_getElem_cons h]
    simp [pairTokens, key, value]
  | case2 i s h =>
    rw [Logger.WithFields.loop, dif_neg h, pairTokens_short]
    · simp
    · simp; omega

theorem WithFields_postFix (l : Logger) (fields : List Value) :
    (l.WithFields fields).postFix
      = strings.Join (List.replicate (fields.length / 2) "" ++ pairTokens fields) " " := by
  simp [Logger.WithFields, loop_eq]

theorem intercalate_go (sep acc : String) (l : List String) :
    String.intercalate.go acc sep l = acc ++ String.intercalate.go "" sep l := by
  induction l generalizing acc with
  | nil => simp [String.intercalate.go]
  | cons a rest ih =>
    rw [String.intercalate.go, ih, String.intercalate.go, ih ("" ++ sep ++ a)]
    simp [String.append_assoc]

theorem intercalate_cons_cons (sep a b : String) (l : List String) :
    sep.intercalate (a :: b :: l) = a ++ sep ++ sep.intercalate (b :: l) := by
  simp only [String.intercalate, String.intercalate.go]
  rw [intercalate_go, intercalate_go sep b]
  simp [String.append_assoc]

theorem spaces_succ (n : Nat) : spaces (n + 1) = " " ++ spaces n := by
  apply String.ext
  simp [spaces, List.replicate_succ]

theorem Join_blanks (n : Nat) (ts : List String) (h : ts ≠ []) :
    strings.Join (List.replicate n "" ++ ts) " " = spaces n ++ strings.Join ts " " := by
  induction n with
  | zero => simp [spaces, strings.Join]
  | succ n ih =>
    have hne : List.replicate n "" ++ ts ≠ [] := by simp [h]
    obtain ⟨b, rest, hb⟩ := List.exists_cons_of_ne_nil hne
    simp only [strings.Join] at ih ⊢
    rw [List.replicate_succ, List.cons_append, hb, intercalate_cons_cons, ← hb, ih, spaces_succ]
    simp [String.append_assoc]

theorem WithFields_flatten (l : Logger) (pairs : List (Value × Value)) (h : 1 ≤ pairs.length) :
    (l.WithFields (flatten pairs)).postFix
      = spaces pairs.length ++ strings.Join (pairs.map token) " " := by
  have h2 : 2 * pairs.length / 2 = pairs.length := by omega
  rw [WithFields_postFix, pairTokens_flatten, length_flatten, h2, Join_blanks]
  intro hnil
  have := congrArg List.length hnil
  simp only [List.length_map, List.length_nil] at this
  omega

theorem pairTokens_dropLast (fields : List Value) (h : fields.length % 2 = 1) :
    pairTokens fields.dropLast = pairTokens fields := by
  induction fields using pairTokens.induct with
  | case1 key value rest ih =>
    have hr : rest.length % 2 = 1 := by simp at h; omega
    have hne : rest ≠ [] := by intro h0; simp [h0] at hr
    obtain ⟨b, t, hb⟩ := List.exists_cons_of_ne_nil hne
    have hd : (key :: value :: rest).dropLast = key :: value :: rest.dropLast := by
      simp [hb, List.dropLast]
    rw [hd, pairTokens, pairTokens, ih hr]
  | case2 l hl =>
    match l, hl with
    | [], _ => rfl
    | [_], _ => rfl
    | a :: b :: r, hl => exact absurd rfl (hl a b r)

theorem emitBefore_empty {α : Type} (r : Except Fault (String × α)) : emitBefore "" r = r := by
  cases r with
  | error e => rfl
  | ok p => simp [emitBefore, Except.map]

theorem emitBefore_emitBefore {α : Type} (s t : String) (r : Except Fault (String × α)) :
    emitBefore s (emitBefore t r) = emitBefore (s ++ t) r := by
  cases r with
  | error e => rfl
  | ok p => simp [emitBefore, Except.map, String.append_assoc]

theorem emitBefore_eq_ok {α : Type} {s : String} {r : Except Fault (String × α)} {out : String}
    {m : α} (h : emitBefore s r = .ok (out, m)) : ∃ t, r = .ok (t, m) ∧ out = s ++ t := by
  cases r with
  | error e => simp [emitBefore, Except.map] at h
  | ok p =>
    obtain ⟨t, k⟩ := p
    simp only [emitBefore, Except.map, Except.ok.injEq, Prod.mk.injEq] at h
    exact ⟨t, by rw [h.2], h.1.symm⟩

theorem doPrintf_text_ne (a : List Value) (c : Char) (rest : List Char) (n : Nat) (r : Bool)
    (h : c ≠ '%') :
    doPrintf a (c :: rest) .text n r = emitBefore c.toString (doPrintf a rest .text n r) := by
  rw [doPrintf, if_pos h]

theorem doPrintf_text_percent (a : List Value) (rest : List Char) (n : Nat) (r : Bool) :
    doPrintf a ('%' :: rest) .text n r = doPrintf a rest (.flags false) n r := by
  rw [doPrintf, if_neg (by decide)]

theorem doPrintf_literal (a : List Value) (lit fmt : List Char) (n : Nat) (r : Bool)
    (h : '%' ∉ lit) :
    doPrintf a (lit ++ fmt) .text n r = emitBefore ⟨lit⟩ (doPrintf a fmt .text n r) := by
  induction lit with
  | nil => exact (emitBefore_empty _).symm
  | cons c rest ih =>
    have hc : c ≠ '%' := fun hc => h (by simp [hc])
    have hr : '%' ∉ rest := fun hr => h (by simp [hr])
    rw [List.cons_append, doPrintf_text_ne a c _ n r hc, ih hr, emitBefore_emitBefore]
    rfl

theorem Sprintf_literal (lit format : String) (a : List Value) (h : '%' ∉ lit.data) :
    Sprintf (lit ++ format) a = (Sprintf format a).map (lit ++ ·) := by
  unfold Sprintf
  rw [String.data_append, doPrintf_literal a _ _ 0 false h]
  cases doPrintf a format.data .text 0 false with
  | error e => rfl
  | ok p =>
    simp only [emitBefore, Except.map]
    split <;> simp [String.append_assoc]

theorem verbStep_eq_some {numArgs : Nat} {c : Char} {k k2 : Nat}
    (h : verbStep numArgs c k = some k2) :
    c ≠ '[' ∧ ((c = '%' ∧ k2 = k) ∨ (c ≠ '%' ∧ k < numArgs ∧ k2 = k + 1)) := by
  unfold verbStep at h
  split at h
  · simp at h
  · rename_i hb
    refine ⟨hb, ?_⟩
    split at h
    · rename_i hp
      simp only [Option.some.injEq] at h
      exact Or.inl ⟨hp, h.symm⟩
    · rename_i hp
      split at h
      · rename_i hlt
        simp only [Option.some.injEq] at h
        exact Or.inr ⟨hp, hlt, h.symm⟩
      · simp at h

theorem doPrintf_append (a : List Value) (x : Value) (tail : List Char) (fmt : List Char)
    (st : Scan) (n : Nat) (r : Bool) (out : String) (m : Nat) (r2 : Bool)
    (hv : nextOperand a.length st.place n fmt = some a.length)
    (hs : doPrintf a fmt st n r = .ok (out, m, r2)) :
    m = a.length
      ∧ doPrintf (a ++ [x]) (fmt ++ tail) st n r
          = emitBefore out (doPrintf (a ++ [x]) tail .text a.length r2) := by
  induction fmt generalizing st n r out with
  | nil =>
    cases st with
    | text =>
      simp only [Scan.place, nextOperand, Option.some.injEq] at hv
      simp only [doPrintf, Except.ok.injEq, Prod.mk.injEq] at hs
      obtain ⟨rfl, rfl, rfl⟩ := hs
      subst hv
      exact ⟨rfl, by rw [List.nil_append, emitBefore_empty]⟩
    | flags seen => simp [Scan.place, nextOperand] at hv
    | index i digits => simp [Scan.place, nextOperand] at hv
    | indexed i => simp [Scan.place, nextOperand] at hv
  | cons c rest ih =>
    cases st with
    | text =>
      by_cases hc : c ≠ '%'
      · simp only [Scan.place, nextOperand, if_pos hc] at hv
        rw [doPrintf_text_ne a c rest n r hc] at hs
        obtain ⟨t, ht, rfl⟩ := emitBefore_eq_ok hs
        obtain ⟨hm, hrest⟩ := ih .text n r t hv ht
        refine ⟨hm, ?_⟩
        rw [List.cons_append, doPrintf_text_ne (a ++ [x]) c _ n r hc, hrest,
          emitBefore_emitBefore]
      · have hc2 : c = '%' := by simpa using hc
        subst hc2
        simp only [Scan.place, nextOperand, if_neg hc] at hv
        rw [doPrintf_text_percent] at hs
        obtain ⟨hm, hrest⟩ := ih (.flags false) n r out hv hs
        refine ⟨hm, ?_⟩
        rw [List.cons_append, doPrintf_text_percent, hrest]
    | flags seen =>
      rw [doPrintf] at hs
      simp only [Scan.place, nextOperand] at hv
      rw [List.cons_append, doPrintf]
      by_cases hflag : isFlag c = true
      · simp only [hflag, if_true] at hs hv ⊢
        exact ih (.flags true) n r out hv hs
      · simp only [hflag, Bool.false_eq_true, if_false] at hs hv ⊢
        by_cases hsize : isSize c = true
        · simp [hsize] at hs
        · simp only [hsize, Bool.false_eq_true, if_false] at hs hv ⊢
          by_cases hb : c = '['
          · simp only [hb, if_true] at hs hv ⊢
            cases seen with
            | true => simp at hs
            | false =>
              simp only [Bool.false_eq_true, if_false] at hs ⊢
              exact ih (.index 0 false) n true out hv hs
          · simp only [hb, if_false] at hs hv ⊢
            cases hstep : verbStep a.length c n with
            | none => simp [hstep] at hv
            | some k2 =>
              simp only [hstep] at hv
              obtain ⟨_, hcase⟩ := verbStep_eq_some hstep
              rcases hcase with ⟨hp, hk⟩ | ⟨hp, hlt, hk⟩
              · rw [hk] at hv
                simp only [hp, if_true] at hs ⊢
                obtain ⟨t, ht, rfl⟩ := emitBefore_eq_ok hs
                obtain ⟨hm, hrest⟩ := ih .text n r t hv ht
                refine ⟨hm, ?_⟩
                rw [hrest, emitBefore_emitBefore]
              · rw [hk] at hv
                simp only [hp, if_false] at hs ⊢
                have harg : a[n]? = some a[n] := List.getElem?_eq_getElem hlt
                have harg2 : (a ++ [x])[n]? = some a[n] := by
                  rw [List.getElem?_append_left hlt]; exact harg
                simp only [harg, harg2] at hs ⊢
                cases seen with
                | true => simp at hs
                | false =>
                  simp only [Bool.false_eq_true, if_false] at hs ⊢
                  cases hprint : printArg a[n] c with
                  | error e => simp [hprint] at hs
                  | ok s =>
                    simp only [hprint] at hs ⊢
                    obtain ⟨t, ht, rfl⟩ := emitBefore_eq_ok hs
                    obtain ⟨hm, hrest⟩ := ih .text (n + 1) r t hv ht
                    refine ⟨hm, ?_⟩
                    rw [hrest, emitBefore_emitBefore]
    | index i digits =>
      rw [doPrintf] at hs
      simp only [Scan.place, nextOperand] at hv
      rw [List.cons_append, doPrintf]
      by_cases hd : c.isDigit = true
      · simp only [hd, if_true] at hs hv ⊢
        by_cases hbig : i > 1000000
        · simp [hbig] at hs
        · simp only [hbig, if_false] at hs hv ⊢
          exact ih _ n r out hv hs
      · simp only [hd, Bool.false_eq_true, if_false] at hs hv ⊢
        by_cases hclose : c = ']' ∧ digits = true
        · simp only [hclose, and_self, if_true] at hs hv ⊢
          exact ih (.indexed i) n r out hv hs
        · simp [hclose] at hs
    | indexed i =>
      rw [doPrintf] at hs
      simp only [Scan.place, nextOperand] at hv
      rw [List.cons_append, doPrintf]
      by_cases hspecial : isFlag c = true ∨ isSize c = true ∨ c = '[' ∨ c = '%'
      · simp [hspecial] at hs
      · simp only [hspecial, if_false] at hs hv ⊢
        by_cases hvalid : 1 ≤ i ∧ i ≤ a.length
        · have hvalid2 : 1 ≤ i ∧ i ≤ (a ++ [x]).length := by
            simp only [List.length_append, List.length_singleton]
            omega
          simp only [hvalid, hvalid2, and_self, if_true] at hs hv ⊢
          have hlt : i - 1 < a.length := by omega
          have harg : a[i - 1]? = some a[i - 1] := List.getElem?_eq_getElem hlt
          have harg2 : (a ++ [x])[i - 1]? = some a[i - 1] := by
            rw [List.getElem?_append_left hlt]; exact harg
          simp only [harg, harg2] at hs ⊢
          cases hprint : printArg a[i - 1] c with
          | error e => simp [hprint] at hs
          | ok s =>
            simp only [hprint] at hs ⊢
            obtain ⟨t, ht, rfl⟩ := emitBefore_eq_ok hs
            obtain ⟨hm, hrest⟩ := ih .text i r t hv ht
            refine ⟨hm, ?_⟩
            rw [hrest, emitBefore_emitBefore]
        · by_cases hnext : i = a.length + 1
          · simp [hvalid, hnext] at hv
          · have hvalid2 : ¬ (1 ≤ i ∧ i ≤ (a ++ [x]).length) := by
              simp only [List.length_append, List.length_singleton]
              omega
            simp only [hvalid, hvalid2, hnext, if_false] at hs hv ⊢
            obtain ⟨t, ht, rfl⟩ := emitBefore_eq_ok hs
            obtain ⟨hm, hrest⟩ := ih .text n r t hv ht
            refine ⟨hm, ?_⟩
            rw [hrest, emitBefore_emitBefore]

theorem Sprintf_exact (format : String) (a : List Value) (s : String)
    (hv : nextOperand a.length .text 0 format.data = some a.length)
    (hs : Sprintf format a = .ok s) :
    ∃ r2, doPrintf a format.data .text 0 false = .ok (s, a.length, r2) := by
  unfold Sprintf at hs
  cases h : doPrintf a format.data .text 0 false with
  | error e => simp [h, Except.map] at hs
  | ok p =>
    obtain ⟨out, m, r2⟩ := p
    obtain ⟨hm, _⟩ := doPrintf_append a Value.nil [] format.data .text 0 false out m r2 hv h
    subst hm
    simp [h, Except.map] at hs
    exact ⟨r2, by rw [hs]⟩

theorem Sprintf_with_suffix (format : String) (a : List Value) (s p : String)
    (hv : nextOperand a.length .text 0 format.data = some a.length)
    (hs : Sprintf format a = .ok s) :
    Sprintf (format ++ " %s") (a ++ [Value.str p]) = .ok (s ++ " " ++ p) := by
  obtain ⟨r2, h0⟩ := Sprintf_exact format a s hv hs
  have h1 := (doPrintf_append a (Value.str p) " %s".data format.data .text 0 false s a.length
    r2 hv h0).2
  have h2 : doPrintf (a ++ [Value.str p]) " %s".data .text a.length r2
      = .ok (" " ++ p, a.length + 1, r2) := by
    have hget : (a ++ [Value.str p])[a.length]? = some (Value.str p) := by simp
    have hd : " %s".data = [' ', '%', 's'] := rfl
    rw [hd, doPrintf_text_ne _ ' ' _ _ _ (by decide), doPrintf_text_percent, doPrintf]
    simp only [hget]
    simp [isFlag, isSize, printArg, doPrintf, emitBefore, Except.map]
    rfl
  unfold Sprintf
  rw [String.data_append, h1, h2]
  simp [emitBefore, Except.map, String.append_assoc]

theorem digitChar_ne_percent (n : Nat) : Nat.digitChar (n % 10) ≠ '%' := by
  have h : n % 10 < 10 := Nat.mod_lt _ (by decide)
  revert h
  generalize n % 10 = d
  intro h
  interval_cases d <;> decide

theorem toDigitsCore_no_percent (fuel n : Nat) (ds : List Char) (h : '%' ∉ ds) :
    '%' ∉ Nat.toDigitsCore 10 fuel n ds := by
  induction fuel generalizing n ds with
  | zero => simpa [Nat.toDigitsCore] using h
  | succ fuel ih =>
    have hd : '%' ∉ Nat.digitChar (n % 10) :: ds := by
      intro hmem
      rcases List.mem_cons.mp hmem with h1 | h1
      · exact digitChar_ne_percent _ h1.symm
      · exact h h1
    simp only [Nat.toDigitsCore]
    split
    · exact hd
    · exact ih _ _ hd

theorem toString_no_percent (n : Nat) : '%' ∉ (toString n).data := by
  show '%' ∉ (Nat.repr n).data
  simp only [Nat.repr, List.asString, Nat.toDigits]
  exact toDigitsCore_no_percent _ _ _ (by simp)

theorem caller_eq (stack : List Frame) (depth : Nat) (fr : Frame)
    (h : runtime.Caller stack (depth + 1) = some fr) :
    caller stack depth = shortenFile fr.file ++ ":" ++ toString fr.line ++ ":" := by
  simp [caller, h]

theorem caller_no_percent (stack : List Frame) (depth : Nat)
    (h : ∀ fr, runtime.Caller stack (depth + 1) = some fr → '%' ∉ (shortenFile fr.file).data) :
    '%' ∉ (caller stack depth ++ " ").data := by
  unfold caller
  cases hc : runtime.Caller stack (depth + 1) with
  | none => decide
  | some fr =>
    have h1 := h fr hc
    have h2 := toString_no_percent fr.line
    simp only [String.data_append, List.mem_append, not_or]
    exact ⟨⟨⟨⟨h1, by decide⟩, h2⟩, by decide⟩, by decide⟩

theorem caller_as_Sprintf (file : String) (line : Nat) :
    Sprintf "%s:%d:" [Value.str (shortenFile file), Value.int line]
      = .ok (shortenFile file ++ ":" ++ toString line ++ ":") := by
  have hd : "%s:%d:".data = ['%', 's', ':', '%', 'd', ':'] := rfl
  unfold Sprintf
  rw [hd]
  simp [doPrintf, isFlag, isSize, printArg, emitBefore, Except.map, Value.text,
    String.append_assoc]
  rfl

theorem takeWhile_append_stop {α : Type} (p : α → Bool) (xs ys : List α) (a : α)
    (ha : p a = false) : (xs ++ a :: ys).takeWhile p = xs.takeWhile p := by
  induction xs with
  | nil => simp [List.takeWhile, ha]
  | cons x rest ih =>
    simp only [List.cons_append, List.takeWhile_cons, ih]

theorem lastSegment_suffix (xs : List Char) :
    (xs.reverse.takeWhile (· ≠ '/')).reverse <:+ xs := by
  have h := List.takeWhile_prefix (l := xs.reverse) (fun c => decide (c ≠ '/'))
  have h2 := List.reverse_suffix.mpr h
  rwa [List.reverse_reverse] at h2

theorem lastSegment_drop (xs : List Char) (j : Nat) (h : xs[j]? = some '/') :
    (xs.reverse.takeWhile (· ≠ '/')).reverse
      = ((xs.drop (j + 1)).reverse.takeWhile (· ≠ '/')).reverse := by
  obtain ⟨hj, hx⟩ := List.getElem?_eq_some.mp h
  have hsplit : xs = xs.take j ++ '/' :: xs.drop (j + 1) := by
    conv_lhs => rw [← List.take_append_drop j xs, List.drop_eq_getElem_cons hj, hx]
  have hrev : xs.reverse = (xs.drop (j + 1)).reverse ++ '/' :: (xs.take j).reverse := by
    conv_lhs => rw [hsplit]
    simp
  rw [hrev, takeWhile_append_stop _ _ _ _ (by decide)]

theorem shortenFile_loop_result (file : List Char) (i : Nat) (foundOne : Bool)
    (hf : foundOne = true → ∃ j, i < j ∧ file[j]? = some '/') :
    shortenFile.loop file i foundOne = file
      ∨ ∃ k j, k ≤ j + 1 ∧ file[j]? = some '/' ∧ shortenFile.loop file i foundOne = file.drop k := by
  induction i generalizing foundOne with
  | zero => exact Or.inl rfl
  | succ i ih =>
    rw [shortenFile.loop]
    split
    · rename_i hslash
      split
      · exact ih true (fun _ => ⟨i + 1, by omega, hslash⟩)
      · rename_i hfound
        have hfo : foundOne = true := by simpa using hfound
        obtain ⟨j, hj, hjs⟩ := hf hfo
        exact Or.inr ⟨i + 1 + 1, j, by omega, hjs, rfl⟩
    · refine ih foundOne (fun h => ?_)
      obtain ⟨j, hj, hjs⟩ := hf h
      exact ⟨j, by omega, hjs⟩

theorem shortenFile_ends_with_baseName (file : String) :
    ∃ dir : String, shortenFile file = dir ++ baseName file := by
  have hsuf : (baseName file).data <:+ (shortenFile file).data := by
    show (file.data.reverse.takeWhile (· ≠ '/')).reverse
      <:+ shortenFile.loop file.data (file.data.length - 1) false
    rcases shortenFile_loop_result file.data (file.data.length - 1) false (by simp) with h | h
    · rw [h]; exact lastSegment_suffix _
    · obtain ⟨k, j, hk, hj, hres⟩ := h
      rw [hres, lastSegment_drop _ j hj]
      exact (lastSegment_suffix _).trans (List.drop_suffix_drop_left _ hk)
  obtain ⟨pre, hpre⟩ := hsuf
  exact ⟨⟨pre⟩, String.ext (by rw [String.data_append, ← hpre])⟩

theorem contains_of_eq (msg pre sub post : String) (h : msg = pre ++ sub ++ post) :
    contains msg sub := by
  refine ⟨pre.data, post.data, ?_⟩
  rw [h]
  simp [String.data_append]

theorem doPrint_cons_str (s : String) (rest : List Value) :
    Sprint (Value.str s :: rest) = s ++ doPrint 1 true rest := by
  simp [Sprint, doPrint, Value.isString, Value.text]

theorem doPrintln_cons (v : Value) (rest : List Value) :
    Sprintln (v :: rest) = v.text ++ doPrintln 1 rest := by
  simp [Sprintln, doPrintln]

theorem endsWithNewline_append_elim (s t : String) (h : endsWithNewline (s ++ t)) :
    endsWithNewline t ∨ (t = "" ∧ endsWithNewline s) := by
  unfold endsWithNewline at *
  rw [String.data_append, List.getLast?_append] at h
  cases ht : t.data.getLast? with
  | none =>
    rw [ht] at h
    right
    exact ⟨String.ext (List.getLast?_eq_none_iff.mp ht), by simpa using h⟩
  | some c =>
    rw [ht] at h
    left
    simpa using h

theorem endsWithNewline_append_right (s t : String) (ht : t ≠ "") :
    endsWithNewline (s ++ t) ↔ endsWithNewline t := by
  unfold endsWithNewline
  rw [String.data_append, List.getLast?_append]
  cases h : t.data.getLast? with
  | none => exact absurd (String.ext (List.getLast?_eq_none_iff.mp h)) ht
  | some c => simp

theorem append_ne_empty_right (s t : String) (ht : t ≠ "") : s ++ t ≠ "" := by
  intro h
  apply ht
  have := congrArg String.data h
  rw [String.data_append] at this
  exact String.ext (List.append_eq_nil.mp this).2

theorem append_ne_empty_left (s t : String) (hs : s ≠ "") : s ++ t ≠ "" := by
  intro h
  apply hs
  have := congrArg String.data h
  rw [String.data_append] at this
  exact String.ext (List.append_eq_nil.mp this).1

theorem not_endsWithNewline_append_char (s : String) (c : Char) (hc : c ≠ '\n') :
    ¬ endsWithNewline (s ++ c.toString) := by
  unfold endsWithNewline
  rw [String.data_append, List.getLast?_append]
  show ¬ ((some c).or s.data.getLast? = some '\n')
  simpa using hc

theorem doPrintln_body (n : Nat) (vs : List Value) :
    ∃ body, doPrintln n vs = body ++ "\n"
      ∧ (0 < n → vs ≠ [] → body ≠ "")
      ∧ (endsWithNewline body ↔ ∃ v, vs.getLast? = some v ∧ endsWithNewline v.text) := by
  induction vs generalizing n with
  | nil =>
    refine ⟨"", rfl, fun _ h => absurd rfl h, ?_⟩
    constructor
    · intro h; exact absurd h (by unfold endsWithNewline; decide)
    · rintro ⟨v, hv, _⟩; simp at hv
  | cons v rest ih =>
    have hsep : ¬ endsWithNewline (if n > 0 then " " else "") := by
      unfold endsWithNewline; split <;> decide
    cases rest with
    | nil =>
      refine ⟨(if n > 0 then " " else "") ++ v.text, by simp [doPrintln], ?_, ?_⟩
      · intro hn _
        apply append_ne_empty_left
        simp [hn]
      · constructor
        · intro h
          rcases endsWithNewline_append_elim _ _ h with h1 | ⟨_, h1⟩
          · exact ⟨v, rfl, h1⟩
          · exact absurd h1 hsep
        · rintro ⟨w, hw, hnl⟩
          simp only [List.getLast?_singleton, Option.some.injEq] at hw
          rw [← hw] at hnl
          have hne : v.text ≠ "" := by
            intro h0; rw [h0] at hnl; exact absurd hnl (by unfold endsWithNewline; decide)
          exact (endsWithNewline_append_right _ _ hne).mpr hnl
    | cons w rest2 =>
      obtain ⟨body, hb, hne, hiff⟩ := ih (n + 1)
      have hbne : body ≠ "" := hne (by omega) (by simp)
      refine ⟨(if n > 0 then " " else "") ++ v.text ++ body, ?_, ?_, ?_⟩
      · rw [doPrintln, hb]; simp [String.append_assoc]
      · intro _ _
        exact append_ne_empty_right _ _ hbne
      · rw [endsWithNewline_append_right _ _ hbne, hiff, List.getLast?_cons_cons]

theorem append_right_cancel (s t u : String) (h : s ++ u = t ++ u) : s = t := by
  have hd := congrArg String.data h
  rw [String.data_append, String.data_append] at hd
  exact String.ext (List.append_cancel_right hd)

theorem doPrintln_cons_text (n : Nat) (v : Value) (rest : List Value) :
    doPrintln n (v :: rest)
      = (if n > 0 then " " else "") ++ strings.Join ((v :: rest).map Value.text) " "
          ++ "\n" := by
  induction rest generalizing n v with
  | nil => simp [doPrintln, strings.Join, String.intercalate, String.intercalate.go]
  | cons w rest2 ih =>
    rw [doPrintln, ih (n + 1) w]
    simp only [strings.Join, List.map_cons]
    rw [intercalate_cons_cons]
    simp [String.append_assoc]

theorem Sprintln_eq (ops : List Value) :
    Sprintln ops = strings.Join (ops.map Value.text) " " ++ "\n" := by
  cases ops with
  | nil => rfl
  | cons v rest =>
    rw [Sprintln, doPrintln_cons_text]
    simp

theorem Join_text_endsWithNewline (ops : List Value) :
    endsWithNewline (strings.Join (ops.map Value.text) " ")
      ↔ ∃ v, ops.getLast? = some v ∧ endsWithNewline v.text := by
  obtain ⟨body, hb, _, hiff⟩ := doPrintln_body 0 ops
  have heq : strings.Join (ops.map Value.text) " " = body := by
    have h := Sprintln_eq ops
    rw [Sprintln, hb] at h
    exact (append_right_cancel _ _ _ h).symm
  rw [heq, hiff]

theorem doPrint_pos (n m : Nat) (p : Bool) (vs : List Value) (hn : 0 < n) (hm : 0 < m) :
    doPrint n p vs = doPrint m p vs := by
  induction vs generalizing n m p with
  | nil => rfl
  | cons v rest ih =>
    rw [doPrint, doPrint, ih (n + 1) (m + 1) _ (by omega) (by omega)]
    simp [hn, hm]

theorem doPrint_after_str (vs : List Value) : doPrint 1 true vs = Sprint vs := by
  cases vs with
  | nil => rfl
  | cons v rest =>
    rw [Sprint, doPrint, doPrint, doPrint_pos (1 + 1) (0 + 1) _ rest (by omega) (by omega)]
    simp

theorem doPrint_append_str (n : Nat) (p : Bool) (vs : List Value) (s : String) :
    doPrint n p (vs ++ [Value.str s]) = doPrint n p vs ++ s := by
  induction vs generalizing n p with
  | nil => simp [doPrint, Value.isString, Value.text]
  | cons v rest ih =>
    rw [List.cons_append, doPrint, doPrint, ih]
    simp [String.append_assoc]

theorem append_eq_empty {s t : String} (h : s ++ t = "") : s = "" ∧ t = "" := by
  have hd := congrArg String.data h
  rw [String.data_append] at hd
  have := List.append_eq_nil.mp hd
  exact ⟨String.ext this.1, String.ext this.2⟩

theorem doPrint_eq_empty (n : Nat) (p : Bool) (vs : List Value) (h : doPrint n p vs = "") :
    ∀ w ∈ vs, w.text = "" := by
  induction vs generalizing n p with
  | nil => intro w hw; simp at hw
  | cons v rest ih =>
    rw [doPrint] at h
    obtain ⟨h1, h2⟩ := append_eq_empty h
    obtain ⟨_, h3⟩ := append_eq_empty h1
    intro w hw
    rcases List.mem_cons.mp hw with rfl | hw
    · exact h3
    · exact ih _ _ h2 w hw

theorem doPrint_endsWithNewline (n : Nat) (p : Bool) (vs : List Value)
    (h : endsWithNewline (doPrint n p vs)) : lastTextEndsWithNewline vs := by
  induction vs generalizing n p with
  | nil =>
    change endsWithNewline "" at h
    exact absurd h (by decide)
  | cons v rest ih =>
    rw [doPrint] at h
    rcases endsWithNewline_append_elim _ _ h with h1 | ⟨h0, h1⟩
    · obtain ⟨front, w, back, hsplit, hnl, hback⟩ := ih _ _ h1
      exact ⟨v :: front, w, back, by rw [hsplit]; rfl, hnl, hback⟩
    · rcases endsWithNewline_append_elim _ _ h1 with h2 | ⟨_, h2⟩
      · exact ⟨[], v, rest, rfl, h2, doPrint_eq_empty _ _ _ h0⟩
      · exact absurd h2 (by split <;> decide)

theorem Sprint_endsWithNewline (vs : List Value) (h : endsWithNewline (Sprint vs)) :
    lastTextEndsWithNewline vs :=
  doPrint_endsWithNewline 0 false vs h

theorem not_endsWithNewline_marker (verb : Char) (tag : String) (htag : tag ≠ "")
    (hnl : ¬ endsWithNewline tag) : ¬ endsWithNewline ("%!" ++ verb.toString ++ tag) := by
  rw [endsWithNewline_append_right _ _ htag]
  exact hnl

theorem endsWithNewline_toString {c : Char} (h : endsWithNewline c.toString) : c = '\n' := by
  unfold endsWithNewline at h
  simpa [Char.toString, String.singleton] using h

theorem opened_text (read : List Char) : opened .text read := Or.inl rfl

theorem opened_extend {st : Scan} {read : List Char} (c : Char) (st2 : Scan)
    (h : opened st read) (h1 : st ≠ .text) (h2 : st ≠ .flags true)
    (hc : isIndexChar c = true) : opened st2 (read ++ [c]) := by
  rcases h with h | h | ⟨g, d, hread, hd⟩
  · exact absurd h h1
  · exact absurd h h2
  · refine Or.inr (Or.inr ⟨g, d ++ [c], by rw [hread]; simp, ?_⟩)
    intro x hx
    rcases List.mem_append.mp hx with hx | hx
    · exact hd x hx
    · simp only [List.mem_singleton] at hx
      rw [hx]; exact hc

theorem doPrintf_step (a : List Value) (c : Char) (rest : List Char) (st : Scan) (n : Nat)
    (r : Bool) (out : String) (k : Nat) (r2 : Bool)
    (h : doPrintf a (c :: rest) st n r = .ok (out, k, r2)) :
    ∃ (piece : String) (st2 : Scan) (n2 : Nat) (r3 : Bool) (out2 : String),
      out = piece ++ out2 ∧ doPrintf a rest st2 n2 r3 = .ok (out2, k, r2)
      ∧ ((st2 = .text
            ∧ (endsWithNewline piece →
                c = '\n' ∨ ((∃ v ∈ a, printArg v c = .ok piece)
                  ∧ st ≠ .text ∧ st ≠ .flags true)))
        ∨ (piece = "" ∧ (c = '%' ∨ isFlag c = true ∨ c = '[' ∨ c.isDigit = true ∨ c = ']')))
      ∧ (∀ read, opened st read → opened st2 (read ++ [c]))
      ∧ (r3 = r ∨ c = '[') := by
  cases st with
  | text =>
    by_cases hc : c ≠ '%'
    · rw [doPrintf_text_ne a c rest n r hc] at h
      obtain ⟨t, ht, rfl⟩ := emitBefore_eq_ok h
      exact ⟨c.toString, .text, n, r, t, rfl, ht,
        Or.inl ⟨rfl, fun hnl => Or.inl (endsWithNewline_toString hnl)⟩,
        fun _ _ => opened_text _, Or.inl rfl⟩
    · have hc2 : c = '%' := by simpa using hc
      subst hc2
      rw [doPrintf_text_percent] at h
      exact ⟨"", _, n, r, out, by simp, h, Or.inr ⟨rfl, Or.inl rfl⟩,
        fun read _ => Or.inr (Or.inr ⟨read, [], rfl, by simp⟩), Or.inl rfl⟩
  | flags seen =>
    rw [doPrintf] at h
    by_cases hflag : isFlag c = true
    · simp only [hflag, if_true] at h
      exact ⟨"", _, n, r, out, by simp, h, Or.inr ⟨rfl, Or.inr (Or.inl hflag)⟩,
        fun _ _ => Or.inr (Or.inl rfl), Or.inl rfl⟩
    · simp only [hflag, Bool.false_eq_true, if_false] at h
      by_cases hsize : isSize c = true
      · simp [hsize] at h
      · simp only [hsize, Bool.false_eq_true, if_false] at h
        by_cases hb : c = '['
        · simp only [hb, if_true] at h
          cases seen with
          | true => simp at h
          | false =>
            simp only [Bool.false_eq_true, if_false] at h
            exact ⟨"", _, n, true, out, by simp, h,
              Or.inr ⟨rfl, Or.inr (Or.inr (Or.inl hb))⟩,
              fun read hread => opened_extend c _ hread (by simp) (by simp)
                (by rw [hb]; rfl),
              Or.inr hb⟩
        · simp only [hb, if_false] at h
          by_cases hp : c = '%'
          · simp only [hp, if_true] at h
            obtain ⟨t, ht, rfl⟩ := emitBefore_eq_ok h
            exact ⟨"%", .text, n, r, t, rfl, ht,
              Or.inl ⟨rfl, fun hnl => absurd hnl (by decide)⟩,
              fun _ _ => opened_text _, Or.inl rfl⟩
          · simp only [hp, if_false] at h
            cases harg : a[n]? with
            | none =>
              simp only [harg] at h
              obtain ⟨t, ht, rfl⟩ := emitBefore_eq_ok h
              exact ⟨_, .text, n, r, t, rfl, ht, Or.inl ⟨rfl, fun hnl =>
                absurd hnl (not_endsWithNewline_marker c "(MISSING)" (by decide) (by decide))⟩,
                fun _ _ => opened_text _, Or.inl rfl⟩
            | some arg =>
              simp only [harg] at h
              cases seen with
              | true => simp at h
              | false =>
                simp only [Bool.false_eq_true, if_false] at h
                cases hprint : printArg arg c with
                | error e => simp [hprint] at h
                | ok s =>
                  simp only [hprint] at h
                  obtain ⟨t, ht, rfl⟩ := emitBefore_eq_ok h
                  exact ⟨s, .text, n + 1, r, t, rfl, ht,
                    Or.inl ⟨rfl, fun _ => Or.inr
                      ⟨⟨arg, List.getElem?_mem harg, hprint⟩, by simp, by simp⟩⟩,
                    fun _ _ => opened_text _, Or.inl rfl⟩
  | index m digits =>
    rw [doPrintf] at h
    by_cases hd : c.isDigit = true
    · simp only [hd, if_true] at h
      split at h
      · simp at h
      · exact ⟨"", _, n, r, out, by simp, h,
          Or.inr ⟨rfl, Or.inr (Or.inr (Or.inr (Or.inl hd)))⟩,
          fun read hread => opened_extend c _ hread (by simp) (by simp)
            (by simp [isIndexChar, hd]),
          Or.inl rfl⟩
    · simp only [hd, Bool.false_eq_true, if_false] at h
      split at h
      · rename_i hclose
        exact ⟨"", _, n, r, out, by simp, h,
          Or.inr ⟨rfl, Or.inr (Or.inr (Or.inr (Or.inr hclose.1)))⟩,
          fun read hread => opened_extend c _ hread (by simp) (by simp)
            (by rw [hclose.1]; rfl),
          Or.inl rfl⟩
      · simp at h
  | indexed m =>
    rw [doPrintf] at h
    split at h
    · simp at h
    · split at h
      · cases harg : a[m - 1]? with
        | none => simp [harg] at h
        | some arg =>
          simp only [harg] at h
          cases hprint : printArg arg c with
          | error e => simp [hprint] at h
          | ok s =>
            simp only [hprint] at h
            obtain ⟨t, ht, rfl⟩ := emitBefore_eq_ok h
            exact ⟨s, .text, m, r, t, rfl, ht,
              Or.inl ⟨rfl, fun _ => Or.inr
                ⟨⟨arg, List.getElem?_mem harg, hprint⟩, by simp, by simp⟩⟩,
              fun _ _ => opened_text _, Or.inl rfl⟩
      · obtain ⟨t, ht, rfl⟩ := emitBefore_eq_ok h
        exact ⟨_, .text, n, r, t, rfl, ht, Or.inl ⟨rfl, fun hnl =>
          absurd hnl (not_endsWithNewline_marker c "(BADINDEX)" (by decide) (by decide))⟩,
          fun _ _ => opened_text _, Or.inl rfl⟩

theorem doPrintf_newline_source (a : List Value) (fmt : List Char) (read : List Char)
    (st : Scan) (n : Nat) (r : Bool) (out : String) (k : Nat) (r2 : Bool)
    (hopen : opened st read)
    (h : doPrintf a fmt st n r = .ok (out, k, r2)) (hnl : endsWithNewline out) :
    ∃ f1 f2 : List Char, read ++ fmt = f1 ++ f2 ∧ rendersNothing a f2
      ∧ (f1.getLast? = some '\n'
        ∨ ∃ v ∈ a, ∃ (verb : Char) (t : String),
            endsWithVerb f1 verb ∧ printArg v verb = .ok t ∧ endsWithNewline t) := by
  induction fmt generalizing read st n r out with
  | nil =>
    cases st with
    | text =>
      simp only [doPrintf, Except.ok.injEq, Prod.mk.injEq] at h
      rw [← h.1] at hnl
      exact absurd hnl (by decide)
    | flags seen =>
      simp only [doPrintf, Except.ok.injEq, Prod.mk.injEq] at h
      rw [← h.1] at hnl
      exact absurd hnl (by decide)
    | index m digits => simp [doPrintf] at h
    | indexed m => simp [doPrintf] at h
  | cons c rest ih =>
    obtain ⟨piece, st2, n2, r3, out2, rfl, hrest, hkind, hnext, _⟩ :=
      doPrintf_step a c rest st n r out k r2 h
    rcases endsWithNewline_append_elim _ _ hnl with h1 | ⟨h0, h1⟩
    · obtain ⟨f1, f2, hsplit, hnothing, hlast⟩ :=
        ih (read ++ [c]) st2 n2 r3 out2 (hnext read hopen) hrest h1
      exact ⟨f1, f2, by rw [← hsplit]; simp, hnothing, hlast⟩
    · rcases hkind with ⟨hst, hpiece⟩ | ⟨hempty, _⟩
      · subst hst
        subst h0
        refine ⟨read ++ [c], rest, by simp, ⟨n2, r3, k, r2, hrest⟩, ?_⟩
        rcases hpiece h1 with hc | ⟨⟨v, hv, hp⟩, hs1, hs2⟩
        · exact Or.inl (by rw [hc]; simp)
        · rcases hopen with ho | ho | ⟨g, d, hread, hd⟩
          · exact absurd ho hs1
          · exact absurd ho hs2
          · exact Or.inr ⟨v, hv, c, piece, ⟨g, d, by rw [hread], hd⟩, hp, h1⟩
      · rw [hempty] at h1
        exact absurd h1 (by decide)

theorem doPrintf_newlineAtEnd (a : List Value) (fmt : List Char) (n : Nat)
    (r : Bool) (out : String) (k : Nat) (r2 : Bool)
    (h : doPrintf a fmt .text n r = .ok (out, k, r2)) (hnl : endsWithNewline out) :
    newlineAtEnd a fmt := by
  obtain ⟨f1, f2, hsplit, hrest⟩ :=
    doPrintf_newline_source a fmt [] .text n r out k r2 (opened_text _) h hnl
  exact ⟨f1, f2, by simpa using hsplit, hrest⟩

theorem doPrintf_reordered (a : List Value) (fmt : List Char) (st : Scan) (n : Nat) (r : Bool)
    (out : String) (k : Nat) (r2 : Bool)
    (h : doPrintf a fmt st n r = .ok (out, k, r2)) (hr : r2 = true) :
    r = true ∨ '[' ∈ fmt := by
  induction fmt generalizing st n r out with
  | nil =>
    cases st with
    | text =>
      simp only [doPrintf, Except.ok.injEq, Prod.mk.injEq] at h
      exact Or.inl (by rw [h.2.2]; exact hr)
    | flags seen =>
      simp only [doPrintf, Except.ok.injEq, Prod.mk.injEq] at h
      exact Or.inl (by rw [h.2.2]; exact hr)
    | index m digits => simp [doPrintf] at h
    | indexed m => simp [doPrintf] at h
  | cons c rest ih =>
    obtain ⟨piece, st2, n2, r3, out2, _, hrest, _, _, hflag⟩ :=
      doPrintf_step a c rest st n r out k r2 h
    rcases ih st2 n2 r3 out2 hrest with h3 | h3
    · rcases hflag with hsame | hc
      · exact Or.inl (by rw [← hsame]; exact h3)
      · exact Or.inr (by rw [hc]; exact List.mem_cons_self _ _)
    · exact Or.inr (List.mem_cons_of_mem _ h3)

theorem not_endsWithNewline_extraArgs (out : String) (unused : List Value) :
    ¬ endsWithNewline (out ++ extraArgs unused) := by
  unfold extraArgs
  have h1 : "%!(EXTRA " ++ String.intercalate ", " (unused.map extraItem) ++ ")" ≠ "" :=
    append_ne_empty_right _ _ (by decide)
  rw [endsWithNewline_append_right _ _ h1, endsWithNewline_append_right _ ")" (by decide)]
  decide

theorem Sprintf_endsWithNewline_out (format : String) (a : List Value) (m : String)
    (hs : Sprintf format a = .ok m) (h : endsWithNewline m) :
    ∃ k r2, doPrintf a format.data .text 0 false = .ok (m, k, r2)
      ∧ (r2 = true ∨ a.length ≤ k) := by
  unfold Sprintf at hs
  cases hd : doPrintf a format.data .text 0 false with
  | error e => simp [hd, Except.map] at hs
  | ok p =>
    obtain ⟨out, k, r2⟩ := p
    simp only [hd, Except.map, Except.ok.injEq] at hs
    split at hs
    · rw [← hs] at h
      exact absurd h (not_endsWithNewline_extraArgs _ _)
    · rename_i hcond
      refine ⟨k, r2, by rw [hs], ?_⟩
      cases r2 with
      | true => exact Or.inl rfl
      | false =>
        right
        simp only [Bool.not_false, true_and, not_lt] at hcond
        exact hcond

theorem Sprintf_endsWithNewline (format : String) (a : List Value) (m : String)
    (hs : Sprintf format a = .ok m) (h : endsWithNewline m) : newlineAtEnd a format.data := by
  obtain ⟨k, r2, hk, _⟩ := Sprintf_endsWithNewline_out format a m hs h
  exact doPrintf_newlineAtEnd a _ 0 false m k r2 hk h

theorem doPrintf_after_location (a : List Value) (rest : List Char) (X : List Char) (st : Scan)
    (n : Nat) (r : Bool) (out : String) (k : Nat) (r2 : Bool)
    (hs : doPrintf a (X ++ ':' :: ' ' :: rest) st n r = .ok (out, k, r2)) :
    ∃ o1 n2 r3 o2, out = o1 ++ " " ++ o2 ∧ doPrintf a rest .text n2 r3 = .ok (o2, k, r2) := by
  induction X generalizing st n r out with
  | nil =>
    obtain ⟨piece, st2, n2, r3, out2, rfl, hrest, hkind, _, _⟩ :=
      doPrintf_step a ':' (' ' :: rest) st n r out k r2 hs
    rcases hkind with ⟨hst, _⟩ | ⟨_, hc⟩
    · subst hst
      rw [doPrintf_text_ne a ' ' rest n2 r3 (by decide)] at hrest
      obtain ⟨o2, h2, rfl⟩ := emitBefore_eq_ok hrest
      exact ⟨piece, n2, r3, o2, by simp only [String.append_assoc]; rfl, h2⟩
    · exact absurd hc (by decide)
  | cons x X2 ih =>
    obtain ⟨piece, st2, n2, r3, out2, rfl, hrest, _, _, _⟩ :=
      doPrintf_step a x (X2 ++ ':' :: ' ' :: rest) st n r out k r2 hs
    obtain ⟨o1, n3, r4, o2, rfl, h2⟩ := ih st2 n2 r3 out2 hrest
    exact ⟨piece ++ o1, n3, r4, o2, by simp only [String.append_assoc], h2⟩

theorem caller_ends_with_colon (stack : List Frame) (depth : Nat) :
    ∃ X : String, caller stack depth = X ++ ":" := by
  unfold caller
  split
  · exact ⟨_, rfl⟩
  · exact ⟨_, rfl⟩

theorem not_endsWithNewline_caller (stack : List Frame) (depth : Nat) :
    ¬ endsWithNewline (caller stack depth) := by
  obtain ⟨X, hX⟩ := caller_ends_with_colon stack depth
  rw [hX, endsWithNewline_append_right _ ":" (by decide)]
  decide

theorem located_Sprintf_endsWithNewline (stack : List Frame) (format : String)
    (a : List Value) (m : String)
    (hs : Sprintf (caller stack 3 ++ " " ++ format) a = .ok m) (h : endsWithNewline m) :
    newlineAtEnd a format.data := by
  obtain ⟨k, r2, hk, _⟩ := Sprintf_endsWithNewline_out _ a m hs h
  obtain ⟨X, hX⟩ := caller_ends_with_colon stack 3
  have hdata : (caller stack 3 ++ " " ++ format).data = X.data ++ ':' :: ' ' :: format.data := by
    rw [hX]
    simp [String.data_append]
  rw [hdata] at hk
  obtain ⟨o1, n2, r3, o2, rfl, h2⟩ :=
    doPrintf_after_location a format.data X.data .text 0 false m k r2 hk
  rcases endsWithNewline_append_elim _ _ h with h1 | ⟨h0, h1⟩
  · exact doPrintf_newlineAtEnd a _ n2 r3 o2 k r2 h2 h1
  · exact absurd h1 (not_endsWithNewline_append_char o1 ' ' (by decide))

theorem doPrintf_suffix_nonempty (a : List Value) (fmt : List Char) (st : Scan) (n : Nat)
    (r : Bool) (out : String) (k : Nat) (r2 : Bool)
    (hs : doPrintf a (fmt ++ [' ', '%', 's']) st n r = .ok (out, k, r2)) : out ≠ "" := by
  induction fmt generalizing st n r out with
  | nil =>
    cases st with
    | text =>
      rw [List.nil_append, doPrintf_text_ne a ' ' _ n r (by decide)] at hs
      obtain ⟨t, _, rfl⟩ := emitBefore_eq_ok hs
      exact append_ne_empty_left _ _ (by decide)
    | flags seen =>
      rw [List.nil_append, doPrintf] at hs
      simp only [show isFlag ' ' = true from rfl, if_true] at hs
      rw [doPrintf] at hs
      simp only [show isFlag '%' = false from rfl, show isSize '%' = false from rfl,
        Bool.false_eq_true, if_false, show ('%' = '[') = False from by decide, if_true] at hs
      obtain ⟨t, _, rfl⟩ := emitBefore_eq_ok hs
      exact append_ne_empty_left _ _ (by decide)
    | index m digits => simp [doPrintf] at hs
    | indexed m => simp [doPrintf, isFlag] at hs
  | cons c rest ih =>
    obtain ⟨piece, st2, n2, r3, out2, rfl, hrest, _, _, _⟩ :=
      doPrintf_step a c (rest ++ [' ', '%', 's']) st n r out k r2 hs
    exact append_ne_empty_right _ _ (ih st2 n2 r3 out2 hrest)

theorem doPrintf_verb_s (a : List Value) (n : Nat) (r : Bool) (out : String) (k : Nat)
    (r2 : Bool) (h : doPrintf a ['s'] (.flags false) n r = .ok (out, k, r2))
    (hnl : endsWithNewline out) :
    ∃ v, a[n]? = some v ∧ k = n + 1 ∧ printArg v 's' = .ok out := by
  rw [doPrintf] at h
  simp only [show isFlag 's' = false from rfl, show isSize 's' = false from rfl,
    Bool.false_eq_true, if_false, show ('s' = '[') = False from by decide,
    show ('s' = '%') = False from by decide] at h
  cases harg : a[n]? with
  | none =>
    simp only [harg] at h
    obtain ⟨t, ht, rfl⟩ := emitBefore_eq_ok h
    simp only [doPrintf, Except.ok.injEq, Prod.mk.injEq] at ht
    rw [← ht.1] at hnl
    exact absurd hnl (by decide)
  | some arg =>
    simp only [harg] at h
    cases hprint : printArg arg 's' with
    | error e => simp [hprint] at h
    | ok s =>
      simp only [hprint] at h
      obtain ⟨t, ht, rfl⟩ := emitBefore_eq_ok h
      simp only [doPrintf, Except.ok.injEq, Prod.mk.injEq] at ht
      refine ⟨arg, rfl, ht.2.1.symm, ?_⟩
      rw [← ht.1, String.append_empty]
      exact hprint

theorem doPrintf_suffix_endsWithNewline (a : List Value) (fmt : List Char) (st : Scan) (n : Nat)
    (r : Bool) (out : String) (k : Nat) (r2 : Bool)
    (hs : doPrintf a (fmt ++ [' ', '%', 's']) st n r = .ok (out, k, r2))
    (hnl : endsWithNewline out) :
    ∃ j v t, a[j]? = some v ∧ k = j + 1 ∧ printArg v 's' = .ok t ∧ endsWithNewline t := by
  induction fmt generalizing st n r out with
  | nil =>
    cases st with
    | text =>
      rw [List.nil_append, doPrintf_text_ne a ' ' _ n r (by decide)] at hs
      obtain ⟨t, ht, rfl⟩ := emitBefore_eq_ok hs
      rw [doPrintf_text_percent] at ht
      rcases endsWithNewline_append_elim _ _ hnl with h1 | ⟨_, h1⟩
      · obtain ⟨v, hv, hk, hp⟩ := doPrintf_verb_s a n r t k r2 ht h1
        exact ⟨n, v, t, hv, hk, hp, h1⟩
      · exact absurd h1 (by decide)
    | flags seen =>
      rw [List.nil_append, doPrintf] at hs
      simp only [show isFlag ' ' = true from rfl, if_true] at hs
      rw [doPrintf] at hs
      simp only [show isFlag '%' = false from rfl, show isSize '%' = false from rfl,
        Bool.false_eq_true, if_false, show ('%' = '[') = False from by decide, if_true] at hs
      obtain ⟨t, ht, rfl⟩ := emitBefore_eq_ok hs
      rw [doPrintf_text_ne a 's' [] n r (by decide)] at ht
      obtain ⟨t2, ht2, rfl⟩ := emitBefore_eq_ok ht
      simp only [doPrintf, Except.ok.injEq, Prod.mk.injEq] at ht2
      rw [← ht2.1] at hnl
      exact absurd hnl (by decide)
    | index m digits => simp [doPrintf] at hs
    | indexed m => simp [doPrintf, isFlag] at hs
  | cons c rest ih =>
    obtain ⟨piece, st2, n2, r3, out2, rfl, hrest, _, _, _⟩ :=
      doPrintf_step a c (rest ++ [' ', '%', 's']) st n r out k r2 hs
    have hne := doPrintf_suffix_nonempty a rest st2 n2 r3 out2 k r2 hrest
    exact ih st2 n2 r3 out2 hrest ((endsWithNewline_append_right _ _ hne).mp hnl)

theorem printArg_str_endsWithNewline (p : String) (verb : Char) (r : String)
    (hp : printArg (Value.str p) verb = .ok r) (h : endsWithNewline r) : endsWithNewline p := by
  unfold printArg at hp
  simp only at hp
  split at hp
  · simp only [Except.ok.injEq] at hp
    rw [← hp] at h
    change endsWithNewline "string" at h
    exact absurd h (by decide)
  · split at hp
    · simp only [Except.ok.injEq] at hp
      rwa [hp]
    · split at hp
      · simp at hp
      · simp only [Except.ok.injEq] at hp
        rw [← hp] at h
        unfold badVerb at h
        exact absurd ((endsWithNewline_append_right _ ")" (by decide)).mp h) (by decide)

theorem suffixed_Sprintf_endsWithNewline (format : String) (a : List Value) (p m : String)
    (hs : Sprintf (format ++ " %s") (a ++ [Value.str p]) = .ok m) (h : endsWithNewline m) :
    endsWithNewline p
      ∨ ('[' ∈ format.data ∧ ∃ v ∈ a, ∃ t, printArg v 's' = .ok t ∧ endsWithNewline t) := by
  obtain ⟨k, r2, hk, hextra⟩ := Sprintf_endsWithNewline_out _ _ m hs h
  rw [String.data_append] at hk
  obtain ⟨j, v, t, hv, hkj, hp, ht⟩ :=
    doPrintf_suffix_endsWithNewline _ format.data .text 0 false m k r2 hk h
  by_cases hj : j < a.length
  · right
    rw [List.getElem?_append_left hj] at hv
    refine ⟨?_, v, List.getElem?_mem hv, t, hp, ht⟩
    have hr2 : r2 = true := by
      rcases hextra with h1 | h1
      · exact h1
      · simp only [List.length_append, List.length_singleton] at h1
        omega
    rcases doPrintf_reordered _ _ .text 0 false m k r2 hk hr2 with h1 | h1
    · simp at h1
    · rcases List.mem_append.mp h1 with h2 | h2
      · exact h2
      · exact absurd h2 (by decide)
  · left
    have hlen : j < (a ++ [Value.str p]).length := by
      obtain ⟨hlt, _⟩ := List.getElem?_eq_some.mp hv
      exact hlt
    have hj2 : j = a.length := by
      simp only [List.length_append, List.length_singleton] at hlen
      omega
    subst hj2
    simp only [List.getElem?_concat_length, Option.some.injEq] at hv
    rw [← hv] at hp
    exact printArg_str_endsWithNewline p 's' t hp ht

/-! ## The field suffix (`WithFields`) -/

/-- C1 (the code at the failing input): for the two pairs `("a", 1), ("b", 2)` the suffix bound
by `WithFields` is `"  a=1 b=2"`, the tokens after two spaces, one space for each pair, where
the claim has `"a=1 b=2"` with nothing in front; `Errorf("x=%d", 9)` on it hands over
`"x=9   a=1 b=2"`; and `WithField("a", 1)` binds `" a=1"`, the suffix of `WithFields("a", 1)` -/
theorem C1_WithFields_suffix_at_two_pairs :
    (Logger.WithFields ⟨⟩ [Value.str "a", Value.int 1, Value.str "b", Value.int 2]).postFix
        = "  a=1 b=2"
      ∧ (Logger.WithFields ⟨⟩ [Value.str "a", Value.int 1, Value.str "b",
            Value.int 2]).LevelPrintf LevelError "x=%d" [Value.int 9]
          = .ok ⟨revel.AppLog.Error, "x=9   a=1 b=2"⟩
      ∧ (Logger.WithField ⟨⟩ "a" (Value.int 1)).postFix = " a=1"
      ∧ Logger.WithField ⟨⟩ "a" (Value.int 1)
          = Logger.WithFields ⟨⟩ [Value.str "a", Value.int 1] := by
  have h : (Logger.WithFields ⟨⟩ [Value.str "a", Value.int 1, Value.str "b",
      Value.int 2]).postFix = "  a=1 b=2" := by
    rw [WithFields_postFix]; decide
  refine ⟨h, ?_, ?_, rfl⟩
  · rw [revelPostfixLogger.LevelPrintf, h]
    rfl
  · rw [Logger.WithField, WithFields_postFix]; decide

/-- C2: for every string key `k`, value `v` and string message `m`, `WithFields(k, v)` followed
by `LevelPrint` at level warn with the single value `m` hands the warn function of the framework
exactly the message `m`, one space, `k`, `=` and the default rendering of `v` -/
theorem C2_WithFields_LevelPrint_message (l : Logger) (k m : String) (v : Value) :
    (l.WithFields [Value.str k, v]).LevelPrint LevelWarn [Value.str m]
      = .ok ⟨revel.AppLog.Warn, m ++ " " ++ k ++ "=" ++ v.text⟩ := by
  have hp := WithFields_flatten l [(Value.str k, v)] (by simp)
  simp only [flatten, List.length_singleton, List.map_cons, List.map_nil, token] at hp
  have hs : Sprint ([Value.str m] ++ [Value.str (l.WithFields [Value.str k, v]).postFix])
      = m ++ " " ++ k ++ "=" ++ v.text := by
    rw [hp]
    have := doPrint_strs 0 false [m, spaces 1 ++ strings.Join [Value.text (Value.str k) ++ "=" ++ v.text] " "]
    simp only [List.map_cons, List.map_nil] at this
    rw [List.singleton_append, Sprint, this]
    apply String.ext
    simp [concat, spaces, strings.Join, String.intercalate, String.intercalate.go, Value.text]
  rw [revelPostfixLogger.LevelPrint, hs]
  exact dispatch_ok (show getRevelLevel LevelWarn = .ok revel.AppLog.Warn from rfl) _

/-- C7: for a field list of odd length the key without a value is dropped: `WithFields` binds
the same suffix as for the list without its last element, the unmatched key adds no token, and
a lone key gives the empty suffix -/
theorem C7_WithFields_drops_unmatched_key (l : Logger) (fields : List Value)
    (hodd : fields.length % 2 = 1) :
    l.WithFields fields = l.WithFields fields.dropLast
      ∧ pairTokens fields = pairTokens fields.dropLast
      ∧ (fields.length = 1 → (l.WithFields fields).postFix = "") := by
  have hlen : fields.dropLast.length / 2 = fields.length / 2 := by
    rw [List.length_dropLast]; omega
  have hpost : (l.WithFields fields).postFix = (l.WithFields fields.dropLast).postFix := by
    rw [WithFields_postFix, WithFields_postFix, pairTokens_dropLast fields hodd, hlen]
  refine ⟨?_, (pairTokens_dropLast fields hodd).symm, ?_⟩
  · cases h1 : l.WithFields fields
    cases h2 : l.WithFields fields.dropLast
    rw [h1, h2] at hpost
    simpa using hpost
  · intro h1
    match fields, h1 with
    | [k], _ =>
      rw [WithFields_postFix]
      show strings.Join (List.replicate (1 / 2) "" ++ []) " " = ""
      decide

/-- C7 at the fields `"a", 1, "b"`: the suffix is the one of `"a", 1`, and the lone key `"b"`
gives the empty suffix -/
theorem C7_WithFields_drops_unmatched_key_witness :
    (Logger.WithFields ⟨⟩ [Value.str "a", Value.int 1, Value.str "b"]
        = Logger.WithFields ⟨⟩ [Value.str "a", Value.int 1])
      ∧ (Logger.WithFields ⟨⟩ [Value.str "b"]).postFix = "" :=
  ⟨(C7_WithFields_drops_unmatched_key ⟨⟩ [Value.str "a", Value.int 1, Value.str "b"]
      (by decide)).1,
    (C7_WithFields_drops_unmatched_key ⟨⟩ [Value.str "b"] (by decide)).2.2 (by decide)⟩

/-! ## The level dispatcher -/

/-- C5: `getRevelLevel` maps each of the six levels to the print function of the same name and
panics for every other level value, and then every `Level*` method of either adapter panics
too, so nothing is dropped in silence; for a level among the six every call that a `Level*`
method makes goes to the function of that level, and `LevelPrint` and `LevelPrintln` do make
the call -/
theorem C5_getRevelLevel_maps_six_levels :
    (getRevelLevel LevelDebug = .ok revel.AppLog.Debug
      ∧ getRevelLevel LevelInfo = .ok revel.AppLog.Info
      ∧ getRevelLevel LevelWarn = .ok revel.AppLog.Warn
      ∧ getRevelLevel LevelError = .ok revel.AppLog.Error
      ∧ getRevelLevel LevelFatal = .ok revel.AppLog.Fatal
      ∧ getRevelLevel LevelPanic = .ok revel.AppLog.Panic)
    ∧ (∀ lev : Level,
        lev ∉ [LevelDebug, LevelInfo, LevelWarn, LevelError, LevelFatal, LevelPanic] →
        getRevelLevel lev = .error (.panic "unreachable")
        ∧ ∀ (l : Logger) (r : revelPostfixLogger) (stack : List Frame) (format : String)
            (i : List Value),
            l.LevelPrint stack lev i = .error (.panic "unreachable")
            ∧ l.LevelPrintf stack lev format i = .error (.panic "unreachable")
            ∧ l.LevelPrintln stack lev i = .error (.panic "unreachable")
            ∧ r.LevelPrint lev i = .error (.panic "unreachable")
            ∧ r.LevelPrintf lev format i = .error (.panic "unreachable")
            ∧ r.LevelPrintln lev i = .error (.panic "unreachable"))
    ∧ (∀ (lev : Level) (fn : revel.AppLog), getRevelLevel lev = .ok fn →
        ∀ (l : Logger) (r : revelPostfixLogger) (stack : List Frame) (format : String)
          (i : List Value),
          (l.LevelPrint stack lev i).map (·.fn) = .ok fn
          ∧ (l.LevelPrintln stack lev i).map (·.fn) = .ok fn
          ∧ (r.LevelPrint lev i).map (·.fn) = .ok fn
          ∧ (r.LevelPrintln lev i).map (·.fn) = .ok fn
          ∧ (∀ c, l.LevelPrintf stack lev format i = .ok c → c.fn = fn)
          ∧ (∀ c, r.LevelPrintf lev format i = .ok c → c.fn = fn)) := by
  refine ⟨⟨rfl, rfl, rfl, rfl, rfl, rfl⟩, ?_, ?_⟩
  · intro lev h
    simp only [List.mem_cons, List.mem_singleton, List.not_mem_nil, or_false, not_or] at h
    obtain ⟨h0, h1, h2, h3, h4, h5⟩ := h
    have hp : getRevelLevel lev = .error (.panic "unreachable") := by
      simp [getRevelLevel, h0, h1, h2, h3, h4, h5]
    refine ⟨hp, fun l r stack format i => ⟨?_, ?_, ?_, ?_, ?_, ?_⟩⟩
    · unfold Logger.LevelPrint
      exact dispatch_panic hp _
    · exact dispatch_panic hp _
    · unfold Logger.LevelPrintln
      exact dispatch_panic hp _
    · unfold revelPostfixLogger.LevelPrint
      exact dispatch_panic hp _
    · unfold revelPostfixLogger.LevelPrintf
      split
      · exact dispatch_panic hp _
      · exact dispatch_panic hp _
    · unfold revelPostfixLogger.LevelPrintln
      exact dispatch_panic hp _
  · intro lev fn h l r stack format i
    have hd : ∀ (m : Except Fault String) (c : revel.Call), dispatch lev m = .ok c → c.fn = fn := by
      intro m c hc
      cases m with
      | error e => simp [dispatch, h] at hc
      | ok s => simp [dispatch, h] at hc; rw [← hc]
    refine ⟨?_, ?_, ?_, ?_, ?_, ?_⟩
    · simp [Logger.LevelPrint, dispatch_ok h, Except.map]
    · simp [Logger.LevelPrintln, dispatch_ok h, Except.map]
    · simp [revelPostfixLogger.LevelPrint, dispatch_ok h, Except.map]
    · simp [revelPostfixLogger.LevelPrintln, dispatch_ok h, Except.map]
    · intro c hc
      exact hd _ c hc
    · intro c hc
      unfold revelPostfixLogger.LevelPrintf at hc
      split at hc
      · exact hd _ c hc
      · exact hd _ c hc

/-- C5 at level warn and at the level value 6: the warn function is chosen and `LevelPrint` of
the base adapter calls it, and the value 6, which is none of the six, panics -/
theorem C5_getRevelLevel_maps_six_levels_witness :
    (Logger.LevelPrint ⟨⟩ [] LevelWarn [Value.str "m"]).map (·.fn) = .ok revel.AppLog.Warn
      ∧ getRevelLevel ⟨6⟩ = .error (.panic "unreachable") :=
  ⟨(C5_getRevelLevel_maps_six_levels.2.2 LevelWarn revel.AppLog.Warn rfl ⟨⟩ ⟨""⟩ [] ""
      [Value.str "m"]).1,
    (C5_getRevelLevel_maps_six_levels.2.1 ⟨6⟩ (by decide)).1⟩

/-! ## The base adapter -/

/-- C6: for every level among the six, every call stack and every list of string values,
`LevelPrint` of the base adapter hands the function of that level exactly the resolved caller
location, one space, and the values written one after the other with nothing between them -/
theorem C6_LevelPrint_message (l : Logger) (stack : List Frame) (lev : Level)
    (fn : revel.AppLog) (vals : List String) (hlev : getRevelLevel lev = .ok fn) :
    l.LevelPrint stack lev (vals.map Value.str)
      = .ok ⟨fn, caller stack 3 ++ " " ++ concat vals⟩ := by
  have h := doPrint_strs 0 false ((caller stack 3 ++ " ") :: vals)
  simp only [List.map_cons, concat] at h
  rw [Logger.LevelPrint, List.singleton_append, Sprint, h]
  exact dispatch_ok hlev _

/-- C6 at the call site `foo.go:42`, level debug and the value `"hello"`: the debug function is
handed `"foo.go:42: hello"` -/
theorem C6_LevelPrint_message_witness :
    caller [⟨"revel.go", 121⟩, ⟨"revel.go", 27⟩, ⟨"mappers.go", 1⟩, ⟨"log.go", 1⟩,
        ⟨"foo.go", 42⟩] 3 = "foo.go:42:"
      ∧ Logger.LevelPrint ⟨⟩ [⟨"revel.go", 121⟩, ⟨"revel.go", 27⟩, ⟨"mappers.go", 1⟩,
          ⟨"log.go", 1⟩, ⟨"foo.go", 42⟩] LevelDebug [Value.str "hello"]
        = .ok ⟨revel.AppLog.Debug, "foo.go:42: hello"⟩ :=
  ⟨by decide,
    C6_LevelPrint_message ⟨⟩ [⟨"revel.go", 121⟩, ⟨"revel.go", 27⟩, ⟨"mappers.go", 1⟩,
      ⟨"log.go", 1⟩, ⟨"foo.go", 42⟩] LevelDebug revel.AppLog.Debug ["hello"] rfl⟩

/-- C9 (the code at the failing input): `shortenFile("/dir/file.go")` is the whole path
`"/dir/file.go"`, which starts with `/` and holds two of them, where the claim has
`"dir/file.go"`; the loop stops before index 0, so the `/` there is never met. With one more
segment in front the result is the folder and the file name -/
theorem C9_shortenFile_at_two_segments :
    shortenFile "/dir/file.go" = "/dir/file.go"
      ∧ shortenFile "/a/dir/file.go" = "dir/file.go" := by
  decide

